import Mathlib

/-!
Verification development for the BlackBoard persistent key/value store
(src/BlackBoard.js).  The store keeps an in-process cache that is either a
plain nested object (unbounded mode, field useCache = false) or an LRU map
keyed by the composite string "section.key" (bounded mode, useCache = true,
enabled together with the MongoDB backend).  Writes destined for MongoDB are
queued in mongoWriteQueue and flushed as one bulk upsert once the queue
reaches length 10; a JSON snapshot of the cache is loaded at startup and
saved on shutdown; a filesystem watcher reloads the snapshot on every
change event.

JavaScript objects are modelled as association lists with unique keys
(insertion order preserved, as in JS); machine-level I/O is modelled by
passing the outcome of each fallible backend call as an explicit argument
(a Bool for success/failure) and by returning the data that would be
written.  Fallible code that the source does not guard with try/catch is
Except-valued, so an unhandled rejection shows up as Except.error.
-/

namespace BlackBoard

/-- Lookup in a JS object modelled as an association list: first binding wins
(JS objects cannot hold duplicate keys, so on reachable states there is at
most one binding per key). -/
def objLookup {κ α : Type} [DecidableEq κ] : List (κ × α) → κ → Option α
  | [], _ => none
  | p :: rest, k => if p.1 = k then some p.2 else objLookup rest k

/-- Property write on a JS object: update the existing binding in place
(keeping its position, as JS does) or append a new binding at the end. -/
def objSet {κ α : Type} [DecidableEq κ] : List (κ × α) → κ → α → List (κ × α)
  | [], k, v => [(k, v)]
  | p :: rest, k, v => if p.1 = k then (k, v) :: rest else p :: objSet rest k v

/-- The JS delete operator on an object: remove the binding for the key if
present (on unique-key lists this removes at most one binding). -/
def objDelete {κ α : Type} [DecidableEq κ] : List (κ × α) → κ → List (κ × α)
  | [], _ => []
  | p :: rest, k => if p.1 = k then objDelete rest k else p :: objDelete rest k

/-- Keys of an association list. -/
def keysOf {κ α : Type} (l : List (κ × α)) : List κ := l.map Prod.fst

/-- Unique keys: the well-formedness that every list denoting a JS object
enjoys. -/
def NodupKeys {κ α : Type} (l : List (κ × α)) : Prop := (keysOf l).Nodup

instance {κ α : Type} [DecidableEq κ] (l : List (κ × α)) : Decidable (NodupKeys l) := by
  unfold NodupKeys
  infer_instance

/-- Faithful model of the JS expression key.split(char) for a one-character
separator, on the character list of the string: split at every occurrence of
the dot, keeping empty fragments, never returning an empty list. -/
def splitOnDot : List Char → List (List Char)
  | [] => [[]]
  | c :: cs =>
    if c = '.' then [] :: splitOnDot cs
    else
      match splitOnDot cs with
      | [] => [[c]]
      | p :: ps => (c :: p) :: ps

/-- The JS expression key.split(...) as used by saveStore. -/
def jsSplitDot (s : String) : List String :=
  (splitOnDot s.data).map (fun cs => String.mk cs)

/-- The composite cache key used in bounded mode:
the template literal with section, a dot, and key. -/
def cacheKey (sect key : String) : String := sect ++ "." ++ key

/-- The two-line idiom repeated throughout the source for writing into a
nested object: obj[sect] = obj[sect] or empty object, then
obj[sect][key] = value. -/
def objSetNested {V : Type} (obj : List (String × List (String × V)))
    (sect key : String) (v : V) : List (String × List (String × V)) :=
  objSet obj sect (objSet ((objLookup obj sect).getD []) key v)

/-- One entry of mongoWriteQueue: the object with section, key and value
pushed by set. -/
structure PendingWrite (V : Type) where
  sect : String
  key : String
  value : V
deriving DecidableEq

/-- The whole mutable state of the BlackBoard instance.  plainStore is
this.store in unbounded mode; lruStore is this.store in bounded (LRU) mode,
keyed by the composite cache key; hasMongo tells whether mongoCollection is
non-null; mongoColl is the contents of the MongoDB collection, keyed by
(section, key); bulkWrites records, in order, every bulk write the store
has handed to collection.bulkWrite (successful or not), so that theorems
can speak about which bulk operations were issued. -/
structure BBState (V : Type) where
  plainStore : List (String × List (String × V))
  lruStore : List (String × V)
  useCache : Bool
  hasMongo : Bool
  mongoColl : List ((String × String) × V)
  mongoWriteQueue : List (PendingWrite V)
  bulkWrites : List (List (PendingWrite V))
deriving DecidableEq

/-- The cache read performed at the top of get: LRU lookup in bounded mode,
nested object lookup (with optional chaining) in unbounded mode. -/
def cacheGet {V : Type} (st : BBState V) (sect key : String) : Option V :=
  if st.useCache then objLookup st.lruStore (cacheKey sect key)
  else (objLookup st.plainStore sect).bind (fun m => objLookup m key)

/-- The cache update shared by set (canCache branch), by the repopulation in
get after a Mongo hit, and by loadStore: LRU set in bounded mode, nested
object write (creating the section object if needed) in unbounded mode. -/
def cachePut {V : Type} (st : BBState V) (sect key : String) (v : V) : BBState V :=
  if st.useCache then
    { st with lruStore := objSet st.lruStore (cacheKey sect key) v }
  else
    { st with plainStore := objSetNested st.plainStore sect key v }

/-- One upsert of the bulk operation: updateOne with filter (section, key),
setting value, upsert true. -/
def collUpsert {V : Type} (coll : List ((String × String) × V))
    (w : PendingWrite V) : List ((String × String) × V) :=
  objSet coll (w.sect, w.key) w.value

/-- Applying a whole bulk write to the collection, in queue order. -/
def applyBulk {V : Type} (coll : List ((String × String) × V))
    (q : List (PendingWrite V)) : List ((String × String) × V) :=
  q.foldl collUpsert coll

/-- flushMongoWrites.  Returns early when no collection is configured or the
queue is empty.  Otherwise it issues one bulk write built from the whole
queue; bulkOk is the outcome of the awaited collection.bulkWrite call.  On
success the queue is reset to []; on failure the catch block only logs, so
the queue (and the collection) are left untouched. -/
def flushMongoWrites {V : Type} (st : BBState V) (bulkOk : Bool) : BBState V :=
  if !st.hasMongo || st.mongoWriteQueue.isEmpty then st
  else if bulkOk then
    let newColl := applyBulk st.mongoColl st.mongoWriteQueue
    let newTrace := st.bulkWrites ++ [st.mongoWriteQueue]
    { st with mongoColl := newColl, mongoWriteQueue := [], bulkWrites := newTrace }
  else
    let newTrace := st.bulkWrites ++ [st.mongoWriteQueue]
    { st with bulkWrites := newTrace }

/-- The push onto mongoWriteQueue performed by set. -/
def pushWrite {V : Type} (st : BBState V) (sect key : String) (v : V) : BBState V :=
  { st with mongoWriteQueue := st.mongoWriteQueue ++ [⟨sect, key, v⟩] }

/-- set(section, key, value, canCache).  Updates the cache when canCache,
then, when a Mongo collection is configured, pushes onto mongoWriteQueue and
flushes once the queue length reaches 10.  The only fallible call inside set
is the bulkWrite inside flushMongoWrites, which is caught there, so set
always completes and is modelled as a total function of the bulk outcome. -/
def set {V : Type} (st : BBState V) (sect key : String) (v : V)
    (canCache : Bool) (bulkOk : Bool) : BBState V :=
  let st1 := if canCache then cachePut st sect key v else st
  if st1.hasMongo then
    let st2 := pushWrite st1 sect key v
    if 10 ≤ st2.mongoWriteQueue.length then flushMongoWrites st2 bulkOk
    else st2
  else st1

/-- get(section, key).  Cache hit returns the cached value.  On a miss with
a Mongo collection configured, the awaited findOne call is NOT wrapped in
try/catch in the source, so when the backend call fails (backendOk = false)
the rejection propagates to the caller of get: modelled as Except.error.
On a backend hit the value is written back into the cache and returned. -/
def get {V : Type} (st : BBState V) (sect key : String)
    (backendOk : Bool) : Except Unit (Option V × BBState V) :=
  match cacheGet st sect key with
  | some v => .ok (some v, st)
  | none =>
    if st.hasMongo then
      if backendOk then
        match objLookup st.mongoColl (sect, key) with
        | some v => .ok (some v, cachePut st sect key v)
        | none => .ok (none, st)
      else .error ()
    else .ok (none, st)

/-- removeKey(section, key): LRU delete of the composite key in bounded
mode; in unbounded mode, delete the key inside the section object (when the
section exists) and drop the whole section once it has no keys left.  With
Mongo configured a deleteOne is issued against the collection. -/
def removeKey {V : Type} (st : BBState V) (sect key : String) : BBState V :=
  let st1 :=
    if st.useCache then
      { st with lruStore := objDelete st.lruStore (cacheKey sect key) }
    else
      match objLookup st.plainStore sect with
      | none => st
      | some m =>
        let m' := objDelete m key
        if m'.isEmpty then { st with plainStore := objDelete st.plainStore sect }
        else { st with plainStore := objSet st.plainStore sect m' }
  if st1.hasMongo then
    { st1 with mongoColl := objDelete st1.mongoColl (sect, key) }
  else st1

/-- removeSection(section): in bounded mode, delete every cache entry whose
composite key starts with the section followed by a dot; in unbounded mode,
delete the section object.  With Mongo configured a deleteMany is issued. -/
def removeSection {V : Type} (st : BBState V) (sect : String) : BBState V :=
  let st1 :=
    if st.useCache then
      let kept := st.lruStore.filter (fun p => !(p.1.startsWith (sect ++ ".")))
      { st with lruStore := kept }
    else
      { st with plainStore := objDelete st.plainStore sect }
  if st1.hasMongo then
    let keptColl := st1.mongoColl.filter (fun p => !(decide (p.1.1 = sect)))
    { st1 with mongoColl := keptColl }
  else st1

/-- Snapshot data: the parsed contents of PersistentState.json, a nested
mapping from section to key to value. -/
abbrev Snapshot (V : Type) : Type := List (String × List (String × V))

/-- The inner loop body of loadStore in unbounded mode: identical to the
cache branch of set. -/
def loadPlainFold {V : Type} (store0 : List (String × List (String × V)))
    (json : Snapshot V) : List (String × List (String × V)) :=
  json.foldl
    (fun acc sectEntry =>
      sectEntry.2.foldl
        (fun a2 kv => objSetNested a2 sectEntry.1 kv.1 kv.2)
        acc)
    store0

/-- The inner loop body of loadStore in bounded mode: an LRU set of the
composite key for every (section, key, value) of the file. -/
def loadLRUFold {V : Type} (cache0 : List (String × V))
    (json : Snapshot V) : List (String × V) :=
  json.foldl
    (fun acc sectEntry =>
      sectEntry.2.foldl
        (fun a2 kv => objSet a2 (cacheKey sectEntry.1 kv.1) kv.2)
        acc)
    cache0

/-- loadStore: iterate over the entries of the parsed file and write every
pair into the current store (the useCache test of the source is constant
through the iteration, so it is hoisted out of the loop here). -/
def loadStore {V : Type} (st : BBState V) (json : Snapshot V) : BBState V :=
  if st.useCache then { st with lruStore := loadLRUFold st.lruStore json }
  else { st with plainStore := loadPlainFold st.plainStore json }

/-- The bounded-mode serialization loop of saveStore: for every cache entry,
split the composite key on dots, destructure the FIRST TWO fragments as
(section, subKey) — discarding any further fragments — and write value at
jsonData[section][subKey].  When the split yields a single fragment the JS
destructuring leaves subKey undefined and property access coerces it to the
string "undefined". -/
def saveStep {V : Type} (j : Snapshot V) (p : String × V) : Snapshot V :=
  match jsSplitDot p.1 with
  | [] => j
  | s :: rest =>
    objSetNested j s
      (match rest with
       | [] => "undefined"
       | k :: _ => k)
      p.2

def saveLRUFold {V : Type} (json : Snapshot V)
    (cache : List (String × V)) : Snapshot V :=
  cache.foldl saveStep json

/-- saveStore: the jsonData object that gets stringified and written to
PersistentState.json.  In bounded mode it is rebuilt from the LRU entries by
splitting composite keys; in unbounded mode Object.assign produces a shallow
copy of the nested store. -/
def saveStore {V : Type} (st : BBState V) : Snapshot V :=
  if st.useCache then saveLRUFold [] st.lruStore
  else st.plainStore

/-- A filesystem event delivered to the fs.watch callback of
setupFileWatcher.  The callback only ever sees eventType; selfInduced
records (for specification purposes) whether the event was produced by the
writeFile of this very instance inside saveStore. -/
structure FileEvent where
  eventType : String
  selfInduced : Bool
deriving DecidableEq

/-- The decision taken by the watcher callback: loadStore is called exactly
when eventType is the string change — there is no comparison against a
save-generation counter, content hash, or any other self-event marker. -/
def watcherReloads (e : FileEvent) : Bool := e.eventType == "change"

/-- The change event that the watched snapshot path emits when saveStore of
this same instance rewrites the file. -/
def saveInducedEvent : FileEvent := { eventType := "change", selfInduced := true }

/-- The calls a shutdown handler can make, in the vocabulary of the spec:
flush the write batcher, save the snapshot, close the backend client. -/
inductive ShutdownStep where
  | flushWrites
  | saveSnapshot
  | closeClient
deriving DecidableEq

/-- The body of both signal handlers installed by setupShutdown: it awaits
saveStore(), then awaits mongoClient close, then exits.  It never calls
flushMongoWrites, so the state (in particular mongoWriteQueue and mongoColl)
is returned unchanged; the snapshot written is saveStore of the current
cache; the trace lists the calls in order. -/
def shutdownHandler {V : Type} (st : BBState V) :
    BBState V × Snapshot V × List ShutdownStep :=
  (st, saveStore st, [ShutdownStep.saveSnapshot, ShutdownStep.closeClient])

/-! ### Specification-side definitions used by the theorems below -/

/-- A key absent from an object. -/
def freshKey {κ α : Type} (l : List (κ × α)) (k : κ) : Prop := ∀ p ∈ l, p.1 ≠ k

/-- A string containing no dot: such section and key names survive the
composite-key encoding and decoding of bounded mode. -/
def dotFree (s : String) : Prop := '.' ∉ s.data

instance (s : String) : Decidable (dotFree s) := by
  unfold dotFree
  infer_instance

/-- Lookup through the nested section/key mapping of a snapshot. -/
def lookup2 {V : Type} (json : Snapshot V) (s k : String) : Option V :=
  (objLookup json s).bind (fun m => objLookup m k)

/-- A well-formed composite cache key: the encoding of a dot-free section
and a dot-free key.  Every key the public API ever puts into the LRU cache
whose section and key contain no dot has this shape. -/
def compositeKey (ck : String) : Prop :=
  ∃ s k, dotFree s ∧ dotFree k ∧ ck = cacheKey s k

/-- Well-formedness of a snapshot built from dot-free sections and keys. -/
def SnapWF {V : Type} (json : Snapshot V) : Prop :=
  NodupKeys json ∧
    ∀ p ∈ json, dotFree p.1 ∧ NodupKeys p.2 ∧ ∀ q ∈ p.2, dotFree q.1

/-- A (section, key, value) write request, as issued by a caller of set. -/
def toPending {V : Type} (w : String × String × V) : PendingWrite V :=
  ⟨w.1, w.2.1, w.2.2⟩

/-- Run a sequence of set calls (with the default cacheable = true) with no
explicit flush in between. -/
def runSets {V : Type} (st : BBState V) (ws : List (String × String × V))
    (bulkOk : Bool) : BBState V :=
  ws.foldl (fun a w => set a w.1 w.2.1 w.2.2 true bulkOk) st

/-- The no-empty-section invariant of the unbounded store: every section
present in the nested mapping holds at least one key. -/
def noEmptySections {V : Type} (st : BBState V) : Prop :=
  ∀ p ∈ st.plainStore, p.2 ≠ []

instance {V : Type} [DecidableEq V] (st : BBState V) : Decidable (noEmptySections st) := by
  unfold noEmptySections
  infer_instance

/-! ### Basic lemmas about the JS-object model -/

theorem objLookup_objSet_self {κ α : Type} [DecidableEq κ]
    (l : List (κ × α)) (k : κ) (v : α) : objLookup (objSet l k v) k = some v := by
  induction l with
  | nil => simp [objSet, objLookup]
  | cons p rest ih =>
    by_cases h : p.1 = k
    · simp [objSet, h, objLookup]
    · simp [objSet, h, objLookup, ih]

theorem objLookup_objSet_ne {κ α : Type} [DecidableEq κ]
    (l : List (κ × α)) (k k' : κ) (v : α) (h : k' ≠ k) :
    objLookup (objSet l k v) k' = objLookup l k' := by
  induction l with
  | nil =>
    simp only [objSet, objLookup]
    rw [if_neg (fun hh => h hh.symm)]
  | cons p rest ih =>
    by_cases hp : p.1 = k
    · have hpk' : ¬ p.1 = k' := fun hh => h (by rw [← hh, hp])
      simp only [objSet, if_pos hp, objLookup]
      rw [if_neg (fun hh => h hh.symm), if_neg hpk']
    · by_cases hp' : p.1 = k'
      · simp only [objSet, if_neg hp, objLookup, if_pos hp']
      · simp only [objSet, if_neg hp, objLookup, if_neg hp', ih]

theorem objLookup_eq_none_of_fresh {κ α : Type} [DecidableEq κ]
    {l : List (κ × α)} {k : κ} (h : freshKey l k) : objLookup l k = none := by
  induction l with
  | nil => rfl
  | cons p rest ih =>
    have hp := h p (by simp)
    simp only [objLookup, if_neg hp]
    exact ih (fun q hq => h q (by simp [hq]))

theorem fresh_of_objLookup_eq_none {κ α : Type} [DecidableEq κ]
    {l : List (κ × α)} {k : κ} (h : objLookup l k = none) : freshKey l k := by
  induction l with
  | nil => intro p hp; cases hp
  | cons p rest ih =>
    intro q hq
    by_cases hp : p.1 = k
    · simp [objLookup, hp] at h
    · simp only [objLookup, if_neg hp] at h
      cases hq with
      | head => exact hp
      | tail _ hq' => exact ih h q hq'

theorem objSet_of_fresh {κ α : Type} [DecidableEq κ]
    {l : List (κ × α)} {k : κ} (v : α) (h : freshKey l k) :
    objSet l k v = l ++ [(k, v)] := by
  induction l with
  | nil => rfl
  | cons p rest ih =>
    have hp := h p (by simp)
    simp only [objSet, if_neg hp, List.cons_append, List.cons.injEq, true_and]
    exact ih (fun q hq => h q (by simp [hq]))

theorem objSet_append_self {κ α : Type} [DecidableEq κ]
    {l : List (κ × α)} {k : κ} (x v : α) (h : freshKey l k) :
    objSet (l ++ [(k, x)]) k v = l ++ [(k, v)] := by
  induction l with
  | nil => simp [objSet]
  | cons p rest ih =>
    have hp := h p (by simp)
    simp only [List.cons_append, objSet, if_neg hp, List.cons.injEq, true_and]
    exact ih (fun q hq => h q (by simp [hq]))

theorem objLookup_append_fresh {κ α : Type} [DecidableEq κ]
    {l : List (κ × α)} {k : κ} (l2 : List (κ × α)) (h : freshKey l k) :
    objLookup (l ++ l2) k = objLookup l2 k := by
  induction l with
  | nil => rfl
  | cons p rest ih =>
    have hp := h p (by simp)
    simp only [List.cons_append, objLookup, if_neg hp]
    exact ih (fun q hq => h q (by simp [hq]))

theorem objDelete_of_fresh {κ α : Type} [DecidableEq κ]
    {l : List (κ × α)} {k : κ} (h : freshKey l k) : objDelete l k = l := by
  induction l with
  | nil => rfl
  | cons p rest ih =>
    have hp := h p (by simp)
    simp only [objDelete, if_neg hp, List.cons.injEq, true_and]
    exact ih (fun q hq => h q (by simp [hq]))

theorem objLookup_objDelete_self {κ α : Type} [DecidableEq κ]
    (l : List (κ × α)) (k : κ) : objLookup (objDelete l k) k = none := by
  induction l with
  | nil => rfl
  | cons p rest ih =>
    by_cases hp : p.1 = k
    · simpa [objDelete, hp] using ih
    · simpa [objDelete, hp, objLookup] using ih

theorem mem_objSet {κ α : Type} [DecidableEq κ]
    {l : List (κ × α)} {k : κ} {v : α} {q : κ × α} (hq : q ∈ objSet l k v) :
    q = (k, v) ∨ q ∈ l := by
  induction l with
  | nil => simpa [objSet] using hq
  | cons p rest ih =>
    by_cases hp : p.1 = k
    · simp only [objSet, if_pos hp, List.mem_cons] at hq
      rcases hq with h | h
      · exact Or.inl h
      · exact Or.inr (List.mem_cons_of_mem _ h)
    · simp only [objSet, if_neg hp, List.mem_cons] at hq
      rcases hq with h | h
      · exact Or.inr (h ▸ List.mem_cons_self _ _)
      · rcases ih h with h' | h'
        · exact Or.inl h'
        · exact Or.inr (List.mem_cons_of_mem _ h')

theorem mem_objDelete {κ α : Type} [DecidableEq κ]
    {l : List (κ × α)} {k : κ} {q : κ × α} (hq : q ∈ objDelete l k) : q ∈ l := by
  induction l with
  | nil => exact hq
  | cons p rest ih =>
    by_cases hp : p.1 = k
    · simp only [objDelete, if_pos hp] at hq
      exact List.mem_cons_of_mem _ (ih hq)
    · simp only [objDelete, if_neg hp, List.mem_cons] at hq
      rcases hq with h | h
      · exact h ▸ List.mem_cons_self _ _
      · exact List.mem_cons_of_mem _ (ih h)

theorem freshKey_iff_not_mem_keysOf {κ α : Type} (l : List (κ × α)) (k : κ) :
    freshKey l k ↔ k ∉ keysOf l := by
  unfold freshKey keysOf
  constructor
  · intro h hk
    rcases List.mem_map.mp hk with ⟨p, hp, hpk⟩
    exact h p hp hpk
  · intro h p hp hpk
    exact h (List.mem_map.mpr ⟨p, hp, hpk⟩)

theorem keysOf_objSet_stale {κ α : Type} [DecidableEq κ]
    {l : List (κ × α)} {k : κ} (v : α) (h : ¬ freshKey l k) :
    keysOf (objSet l k v) = keysOf l := by
  induction l with
  | nil => exact absurd (fun p hp => absurd hp (List.not_mem_nil p)) h
  | cons p rest ih =>
    by_cases hp : p.1 = k
    · simp [objSet, hp, keysOf]
    · have : ¬ freshKey rest k := by
        intro hrest
        exact h (fun q hq => by
          cases hq with
          | head => exact hp
          | tail _ hq' => exact hrest q hq')
      simp only [objSet, if_neg hp, keysOf, List.map_cons, List.cons.injEq, true_and]
      exact ih this

theorem nodupKeys_objSet {κ α : Type} [DecidableEq κ]
    {l : List (κ × α)} (k : κ) (v : α) (h : NodupKeys l) :
    NodupKeys (objSet l k v) := by
  by_cases hk : freshKey l k
  · rw [objSet_of_fresh v hk]
    unfold NodupKeys keysOf at h ⊢
    rw [List.map_append]
    simp only [List.map_cons, List.map_nil]
    rw [List.nodup_append]
    refine ⟨h, List.nodup_singleton k, ?_⟩
    intro a ha
    simp only [List.mem_singleton]
    intro hak
    subst hak
    exact (freshKey_iff_not_mem_keysOf l a).mp hk ha
  · unfold NodupKeys
    rw [keysOf_objSet_stale v hk]
    exact h

/-! ### Lemmas about composite cache keys and the dot split -/

theorem cacheKey_data (s k : String) :
    (cacheKey s k).data = s.data ++ '.' :: k.data := by
  unfold cacheKey
  rw [String.data_append, String.data_append]
  simp

theorem splitOnDot_of_no_dot {l : List Char} (h : '.' ∉ l) :
    splitOnDot l = [l] := by
  induction l with
  | nil => rfl
  | cons c cs ih =>
    have hc : ¬ c = '.' := fun hh => h (hh ▸ List.mem_cons_self c cs)
    have hcs : '.' ∉ cs := fun hh => h (List.mem_cons_of_mem c hh)
    simp only [splitOnDot, if_neg hc, ih hcs]

theorem splitOnDot_append_dot {l1 : List Char} (l2 : List Char) (h : '.' ∉ l1) :
    splitOnDot (l1 ++ '.' :: l2) = l1 :: splitOnDot l2 := by
  induction l1 with
  | nil => simp [splitOnDot]
  | cons c cs ih =>
    have hc : ¬ c = '.' := fun hh => h (hh ▸ List.mem_cons_self c cs)
    have hcs : '.' ∉ cs := fun hh => h (List.mem_cons_of_mem c hh)
    simp only [List.cons_append, splitOnDot, if_neg hc, List.append_eq]
    rw [ih hcs]

theorem jsSplitDot_cacheKey {s k : String} (hs : dotFree s) (hk : dotFree k) :
    jsSplitDot (cacheKey s k) = [s, k] := by
  unfold jsSplitDot
  rw [cacheKey_data, splitOnDot_append_dot k.data hs, splitOnDot_of_no_dot hk]
  rfl

theorem append_dot_cons_inj : ∀ (l1 l2 r1 r2 : List Char), '.' ∉ l1 → '.' ∉ l2 →
    l1 ++ '.' :: r1 = l2 ++ '.' :: r2 → l1 = l2 ∧ r1 = r2 := by
  intro l1
  induction l1 with
  | nil =>
    intro l2 r1 r2 _ h2 heq
    cases l2 with
    | nil => simpa using heq
    | cons d ds =>
      exfalso
      simp only [List.nil_append, List.cons_append, List.cons.injEq] at heq
      exact h2 (heq.1 ▸ List.mem_cons_self d ds)
  | cons c cs ih =>
    intro l2 r1 r2 h1 h2 heq
    cases l2 with
    | nil =>
      exfalso
      simp only [List.nil_append, List.cons_append, List.cons.injEq] at heq
      exact h1 (heq.1.symm ▸ List.mem_cons_self c cs)
    | cons d ds =>
      simp only [List.cons_append, List.cons.injEq] at heq
      have hcs : '.' ∉ cs := fun hh => h1 (List.mem_cons_of_mem c hh)
      have hds : '.' ∉ ds := fun hh => h2 (List.mem_cons_of_mem d hh)
      rcases ih ds r1 r2 hcs hds heq.2 with ⟨hl, hr⟩
      exact ⟨by rw [heq.1, hl], hr⟩

theorem string_data_inj {a b : String} (h : a.data = b.data) : a = b := by
  cases a
  cases b
  exact congrArg String.mk h

theorem cacheKey_inj {s1 k1 s2 k2 : String} (h1 : dotFree s1) (h2 : dotFree s2)
    (heq : cacheKey s1 k1 = cacheKey s2 k2) : s1 = s2 ∧ k1 = k2 := by
  have hdata : s1.data ++ '.' :: k1.data = s2.data ++ '.' :: k2.data := by
    have := congrArg String.data heq
    rwa [cacheKey_data, cacheKey_data] at this
  rcases append_dot_cons_inj s1.data s2.data k1.data k2.data h1 h2 hdata with ⟨hs, hk⟩
  exact ⟨string_data_inj hs, string_data_inj hk⟩

/-! ### Projection lemmas: which fields each operation leaves alone -/

theorem cachePut_hasMongo {V : Type} (st : BBState V) (s k : String) (v : V) :
    (cachePut st s k v).hasMongo = st.hasMongo := by
  unfold cachePut
  by_cases h : st.useCache <;> simp [h]

theorem cachePut_useCache {V : Type} (st : BBState V) (s k : String) (v : V) :
    (cachePut st s k v).useCache = st.useCache := by
  unfold cachePut
  by_cases h : st.useCache <;> simp [h]

theorem cachePut_mongoWriteQueue {V : Type} (st : BBState V) (s k : String) (v : V) :
    (cachePut st s k v).mongoWriteQueue = st.mongoWriteQueue := by
  unfold cachePut
  by_cases h : st.useCache <;> simp [h]

theorem cachePut_mongoColl {V : Type} (st : BBState V) (s k : String) (v : V) :
    (cachePut st s k v).mongoColl = st.mongoColl := by
  unfold cachePut
  by_cases h : st.useCache <;> simp [h]

theorem cachePut_bulkWrites {V : Type} (st : BBState V) (s k : String) (v : V) :
    (cachePut st s k v).bulkWrites = st.bulkWrites := by
  unfold cachePut
  by_cases h : st.useCache <;> simp [h]

theorem flushMongoWrites_lruStore {V : Type} (st : BBState V) (b : Bool) :
    (flushMongoWrites st b).lruStore = st.lruStore := by
  unfold flushMongoWrites
  by_cases h : (!st.hasMongo || st.mongoWriteQueue.isEmpty) = true
  · simp [h]
  · by_cases hb : b <;> simp [h, hb]

theorem flushMongoWrites_plainStore {V : Type} (st : BBState V) (b : Bool) :
    (flushMongoWrites st b).plainStore = st.plainStore := by
  unfold flushMongoWrites
  by_cases h : (!st.hasMongo || st.mongoWriteQueue.isEmpty) = true
  · simp [h]
  · by_cases hb : b <;> simp [h, hb]

theorem flushMongoWrites_useCache {V : Type} (st : BBState V) (b : Bool) :
    (flushMongoWrites st b).useCache = st.useCache := by
  unfold flushMongoWrites
  by_cases h : (!st.hasMongo || st.mongoWriteQueue.isEmpty) = true
  · simp [h]
  · by_cases hb : b <;> simp [h, hb]

theorem flushMongoWrites_hasMongo {V : Type} (st : BBState V) (b : Bool) :
    (flushMongoWrites st b).hasMongo = st.hasMongo := by
  unfold flushMongoWrites
  by_cases h : (!st.hasMongo || st.mongoWriteQueue.isEmpty) = true
  · simp [h]
  · by_cases hb : b <;> simp [h, hb]

theorem pushWrite_lruStore {V : Type} (st : BBState V) (s k : String) (v : V) :
    (pushWrite st s k v).lruStore = st.lruStore := rfl

theorem pushWrite_plainStore {V : Type} (st : BBState V) (s k : String) (v : V) :
    (pushWrite st s k v).plainStore = st.plainStore := rfl

theorem pushWrite_useCache {V : Type} (st : BBState V) (s k : String) (v : V) :
    (pushWrite st s k v).useCache = st.useCache := rfl

theorem pushWrite_hasMongo {V : Type} (st : BBState V) (s k : String) (v : V) :
    (pushWrite st s k v).hasMongo = st.hasMongo := rfl

theorem pushWrite_mongoColl {V : Type} (st : BBState V) (s k : String) (v : V) :
    (pushWrite st s k v).mongoColl = st.mongoColl := rfl

theorem pushWrite_bulkWrites {V : Type} (st : BBState V) (s k : String) (v : V) :
    (pushWrite st s k v).bulkWrites = st.bulkWrites := rfl

theorem set_lruStore_eq {V : Type} (st : BBState V) (s k : String) (v : V)
    (c b : Bool) :
    (set st s k v c b).lruStore = (if c then cachePut st s k v else st).lruStore := by
  dsimp only [set]
  by_cases hm : (if c then cachePut st s k v else st).hasMongo = true
  · rw [if_pos hm]
    by_cases hl : 10 ≤ (pushWrite (if c then cachePut st s k v else st) s k v).mongoWriteQueue.length
    · rw [if_pos hl, flushMongoWrites_lruStore, pushWrite_lruStore]
    · rw [if_neg hl, pushWrite_lruStore]
  · rw [if_neg hm]

theorem set_plainStore_eq {V : Type} (st : BBState V) (s k : String) (v : V)
    (c b : Bool) :
    (set st s k v c b).plainStore = (if c then cachePut st s k v else st).plainStore := by
  dsimp only [set]
  by_cases hm : (if c then cachePut st s k v else st).hasMongo = true
  · rw [if_pos hm]
    by_cases hl : 10 ≤ (pushWrite (if c then cachePut st s k v else st) s k v).mongoWriteQueue.length
    · rw [if_pos hl, flushMongoWrites_plainStore, pushWrite_plainStore]
    · rw [if_neg hl, pushWrite_plainStore]
  · rw [if_neg hm]

theorem set_useCache {V : Type} (st : BBState V) (s k : String) (v : V)
    (c b : Bool) : (set st s k v c b).useCache = st.useCache := by
  have hbase : (if c then cachePut st s k v else st).useCache = st.useCache := by
    split
    · rw [cachePut_useCache]
    · rfl
  dsimp only [set]
  by_cases hm : (if c then cachePut st s k v else st).hasMongo = true
  · rw [if_pos hm]
    by_cases hl : 10 ≤ (pushWrite (if c then cachePut st s k v else st) s k v).mongoWriteQueue.length
    · rw [if_pos hl, flushMongoWrites_useCache, pushWrite_useCache, hbase]
    · rw [if_neg hl, pushWrite_useCache, hbase]
  · rw [if_neg hm, hbase]

theorem set_hasMongo {V : Type} (st : BBState V) (s k : String) (v : V)
    (c b : Bool) : (set st s k v c b).hasMongo = st.hasMongo := by
  have hbase : (if c then cachePut st s k v else st).hasMongo = st.hasMongo := by
    split
    · rw [cachePut_hasMongo]
    · rfl
  dsimp only [set]
  by_cases hm : (if c then cachePut st s k v else st).hasMongo = true
  · rw [if_pos hm]
    by_cases hl : 10 ≤ (pushWrite (if c then cachePut st s k v else st) s k v).mongoWriteQueue.length
    · rw [if_pos hl, flushMongoWrites_hasMongo, pushWrite_hasMongo, hbase]
    · rw [if_neg hl, pushWrite_hasMongo, hbase]
  · rw [if_neg hm, hbase]

/-! ### Lookup through a nested snapshot, and flush/set behaviour -/

theorem objLookup_mem {κ α : Type} [DecidableEq κ]
    {l : List (κ × α)} {k : κ} {v : α} (h : objLookup l k = some v) : (k, v) ∈ l := by
  induction l with
  | nil => cases h
  | cons p rest ih =>
    by_cases hp : p.1 = k
    · simp only [objLookup, if_pos hp] at h
      have : p = (k, v) := by
        cases p
        simp only [Option.some_inj] at h
        simp_all
      exact this ▸ List.mem_cons_self p rest
    · simp only [objLookup, if_neg hp] at h
      exact List.mem_cons_of_mem _ (ih h)

theorem lookup2_objSetNested {V : Type} (json : Snapshot V) (s0 k0 : String)
    (v : V) (s k : String) :
    lookup2 (objSetNested json s0 k0 v) s k =
      if s = s0 ∧ k = k0 then some v else lookup2 json s k := by
  unfold lookup2 objSetNested
  by_cases hs : s = s0
  · subst hs
    rw [objLookup_objSet_self]
    by_cases hk : k = k0
    · subst hk
      rw [if_pos ⟨rfl, rfl⟩]
      simp [objLookup_objSet_self]
    · rw [if_neg (fun hh => hk hh.2)]
      simp only [Option.some_bind]
      rw [objLookup_objSet_ne _ _ _ _ hk]
      cases hL : objLookup json s with
      | none => simp [hL, objLookup]
      | some m => simp [hL]
  · rw [objLookup_objSet_ne _ _ _ _ hs, if_neg (fun hh => hs hh.1)]

theorem flushMongoWrites_no_mongo {V : Type} (st : BBState V) (b : Bool)
    (h : st.hasMongo = false) : flushMongoWrites st b = st := by
  unfold flushMongoWrites
  simp [h]

theorem flushMongoWrites_empty_queue {V : Type} (st : BBState V) (b : Bool)
    (h : st.mongoWriteQueue = []) : flushMongoWrites st b = st := by
  unfold flushMongoWrites
  simp [h]

theorem flushMongoWrites_success {V : Type} (st : BBState V)
    (hm : st.hasMongo = true) (hq : st.mongoWriteQueue ≠ []) :
    flushMongoWrites st true =
      { st with
          mongoColl := applyBulk st.mongoColl st.mongoWriteQueue,
          mongoWriteQueue := [],
          bulkWrites := st.bulkWrites ++ [st.mongoWriteQueue] } := by
  unfold flushMongoWrites
  simp [hm, hq]

theorem flushMongoWrites_failure {V : Type} (st : BBState V)
    (hm : st.hasMongo = true) (hq : st.mongoWriteQueue ≠ []) :
    flushMongoWrites st false =
      { st with bulkWrites := st.bulkWrites ++ [st.mongoWriteQueue] } := by
  unfold flushMongoWrites
  simp [hm, hq]

theorem set_no_mongo {V : Type} (st : BBState V) (s k : String) (v : V)
    (c b : Bool) (hm : st.hasMongo = false) :
    set st s k v c b = (if c then cachePut st s k v else st) := by
  dsimp only [set]
  have : (if c then cachePut st s k v else st).hasMongo = false := by
    split
    · rw [cachePut_hasMongo]; exact hm
    · exact hm
  rw [if_neg (by rw [this]; exact Bool.false_ne_true)]

theorem set_under_threshold {V : Type} (st : BBState V) (s k : String) (v : V)
    (c b : Bool) (hm : st.hasMongo = true)
    (hlen : st.mongoWriteQueue.length + 1 < 10) :
    set st s k v c b = pushWrite (if c then cachePut st s k v else st) s k v := by
  dsimp only [set]
  have hm1 : (if c then cachePut st s k v else st).hasMongo = true := by
    split
    · rw [cachePut_hasMongo]; exact hm
    · exact hm
  have hq1 : (if c then cachePut st s k v else st).mongoWriteQueue = st.mongoWriteQueue := by
    split
    · rw [cachePut_mongoWriteQueue]
    · rfl
  rw [if_pos hm1]
  have hlen2 : ¬ 10 ≤ (pushWrite (if c then cachePut st s k v else st) s k v).mongoWriteQueue.length := by
    unfold pushWrite
    simp only [List.length_append, List.length_cons, List.length_nil, hq1]
    omega
  rw [if_neg hlen2]

theorem set_at_threshold {V : Type} (st : BBState V) (s k : String) (v : V)
    (c b : Bool) (hm : st.hasMongo = true)
    (hlen : 10 ≤ st.mongoWriteQueue.length + 1) :
    set st s k v c b =
      flushMongoWrites (pushWrite (if c then cachePut st s k v else st) s k v) b := by
  dsimp only [set]
  have hm1 : (if c then cachePut st s k v else st).hasMongo = true := by
    split
    · rw [cachePut_hasMongo]; exact hm
    · exact hm
  have hq1 : (if c then cachePut st s k v else st).mongoWriteQueue = st.mongoWriteQueue := by
    split
    · rw [cachePut_mongoWriteQueue]
    · rfl
  rw [if_pos hm1]
  have hlen2 : 10 ≤ (pushWrite (if c then cachePut st s k v else st) s k v).mongoWriteQueue.length := by
    unfold pushWrite
    simp only [List.length_append, List.length_cons, List.length_nil, hq1]
    omega
  rw [if_pos hlen2]

theorem objLookup_applyBulk_last {V : Type} (coll : List ((String × String) × V))
    (q : List (PendingWrite V)) (w : PendingWrite V) :
    objLookup (applyBulk coll (q ++ [w])) (w.sect, w.key) = some w.value := by
  unfold applyBulk
  rw [List.foldl_append]
  simp only [List.foldl_cons, List.foldl_nil]
  unfold collUpsert
  exact objLookup_objSet_self _ _ _

/-- A failed (or successful) flush followed by a successful flush lands the
whole original queue in the collection. -/
theorem flush_flush_mongoColl {V : Type} (st : BBState V) (b : Bool)
    (hm : st.hasMongo = true) :
    (flushMongoWrites (flushMongoWrites st b) true).mongoColl =
      applyBulk st.mongoColl st.mongoWriteQueue := by
  by_cases hq : st.mongoWriteQueue = []
  · rw [flushMongoWrites_empty_queue st b hq, flushMongoWrites_empty_queue st true hq, hq]
    rfl
  · cases b with
    | true =>
      rw [flushMongoWrites_success st hm hq]
      rw [flushMongoWrites_empty_queue _ _ rfl]
    | false =>
      rw [flushMongoWrites_failure st hm hq]
      rw [flushMongoWrites_success { st with bulkWrites := st.bulkWrites ++ [st.mongoWriteQueue] } hm hq]

/-- After a set followed by a successful explicit flush, the collection
holds the queue contents with the new write applied last. -/
theorem flush_after_set_mongoColl {V : Type} (st : BBState V) (s k : String)
    (v : V) (c b : Bool) (hm : st.hasMongo = true) :
    (flushMongoWrites (set st s k v c b) true).mongoColl =
      applyBulk st.mongoColl (st.mongoWriteQueue ++ [⟨s, k, v⟩]) := by
  have hq1 : (if c then cachePut st s k v else st).mongoWriteQueue = st.mongoWriteQueue := by
    split
    · rw [cachePut_mongoWriteQueue]
    · rfl
  have hcoll1 : (if c then cachePut st s k v else st).mongoColl = st.mongoColl := by
    split
    · rw [cachePut_mongoColl]
    · rfl
  have hm1 : (if c then cachePut st s k v else st).hasMongo = true := by
    split
    · rw [cachePut_hasMongo]; exact hm
    · exact hm
  have hq2 : (pushWrite (if c then cachePut st s k v else st) s k v).mongoWriteQueue
      = st.mongoWriteQueue ++ [⟨s, k, v⟩] := by
    unfold pushWrite
    simp [hq1]
  have hPm : (pushWrite (if c then cachePut st s k v else st) s k v).hasMongo = true := by
    rw [pushWrite_hasMongo]; exact hm1
  have hPq : (pushWrite (if c then cachePut st s k v else st) s k v).mongoWriteQueue ≠ [] := by
    rw [hq2]; simp
  by_cases hlen : st.mongoWriteQueue.length + 1 < 10
  · rw [set_under_threshold st s k v c b hm hlen]
    rw [flushMongoWrites_success _ hPm hPq]
    simp only [hq2, pushWrite_mongoColl, hcoll1]
  · rw [set_at_threshold st s k v c b hm (by omega)]
    rw [flush_flush_mongoColl _ b hPm]
    rw [hq2, pushWrite_mongoColl, hcoll1]

/-! ### Sequences of set calls and the batching threshold -/

theorem set_true_under {V : Type} (st : BBState V) (s k : String) (v : V)
    (b : Bool) (hm : st.hasMongo = true)
    (hlen : st.mongoWriteQueue.length + 1 < 10) :
    set st s k v true b = pushWrite (cachePut st s k v) s k v := by
  rw [set_under_threshold st s k v true b hm hlen]
  simp

theorem set_true_at {V : Type} (st : BBState V) (s k : String) (v : V)
    (b : Bool) (hm : st.hasMongo = true)
    (hlen : 10 ≤ st.mongoWriteQueue.length + 1) :
    set st s k v true b = flushMongoWrites (pushWrite (cachePut st s k v) s k v) b := by
  rw [set_at_threshold st s k v true b hm hlen]
  simp

theorem runSets_under_threshold {V : Type} :
    ∀ (ws : List (String × String × V)) (st : BBState V) (b : Bool),
    st.hasMongo = true → st.mongoWriteQueue.length + ws.length < 10 →
    (runSets st ws b).mongoWriteQueue = st.mongoWriteQueue ++ ws.map toPending ∧
    (runSets st ws b).bulkWrites = st.bulkWrites ∧
    (runSets st ws b).mongoColl = st.mongoColl := by
  intro ws
  induction ws with
  | nil =>
    intro st b _ _
    simp [runSets]
  | cons w rest ih =>
    intro st b hm hlen
    have hstep : runSets st (w :: rest) b
        = runSets (set st w.1 w.2.1 w.2.2 true b) rest b := rfl
    have hlen1 : st.mongoWriteQueue.length + 1 < 10 := by
      simp only [List.length_cons] at hlen
      omega
    rw [hstep, set_true_under st w.1 w.2.1 w.2.2 b hm hlen1]
    have hQq : (pushWrite (cachePut st w.1 w.2.1 w.2.2) w.1 w.2.1 w.2.2).mongoWriteQueue
        = st.mongoWriteQueue ++ [toPending w] := by
      unfold pushWrite toPending
      simp [cachePut_mongoWriteQueue]
    have hQm : (pushWrite (cachePut st w.1 w.2.1 w.2.2) w.1 w.2.1 w.2.2).hasMongo = true := by
      rw [pushWrite_hasMongo, cachePut_hasMongo]
      exact hm
    have hQb : (pushWrite (cachePut st w.1 w.2.1 w.2.2) w.1 w.2.1 w.2.2).bulkWrites
        = st.bulkWrites := by
      rw [pushWrite_bulkWrites, cachePut_bulkWrites]
    have hQc : (pushWrite (cachePut st w.1 w.2.1 w.2.2) w.1 w.2.1 w.2.2).mongoColl
        = st.mongoColl := by
      rw [pushWrite_mongoColl, cachePut_mongoColl]
    have hlen2 : (pushWrite (cachePut st w.1 w.2.1 w.2.2) w.1 w.2.1 w.2.2).mongoWriteQueue.length
        + rest.length < 10 := by
      rw [hQq]
      simp only [List.length_append, List.length_cons, List.length_nil] at hlen ⊢
      omega
    rcases ih (pushWrite (cachePut st w.1 w.2.1 w.2.2) w.1 w.2.1 w.2.2) b hQm hlen2
      with ⟨h1, h2, h3⟩
    refine ⟨?_, by rw [h2, hQb], by rw [h3, hQc]⟩
    rw [h1, hQq]
    simp [List.append_assoc]

theorem runSets_at_threshold {V : Type} :
    ∀ (ws : List (String × String × V)) (st : BBState V),
    st.hasMongo = true → ws ≠ [] → st.mongoWriteQueue.length + ws.length = 10 →
    (runSets st ws true).mongoWriteQueue = [] ∧
    (runSets st ws true).bulkWrites
      = st.bulkWrites ++ [st.mongoWriteQueue ++ ws.map toPending] ∧
    (runSets st ws true).mongoColl
      = applyBulk st.mongoColl (st.mongoWriteQueue ++ ws.map toPending) := by
  intro ws
  induction ws with
  | nil =>
    intro st _ hne _
    exact absurd rfl hne
  | cons w rest ih =>
    intro st hm _ hlen
    have hstep : runSets st (w :: rest) true
        = runSets (set st w.1 w.2.1 w.2.2 true true) rest true := rfl
    have hQq : (pushWrite (cachePut st w.1 w.2.1 w.2.2) w.1 w.2.1 w.2.2).mongoWriteQueue
        = st.mongoWriteQueue ++ [toPending w] := by
      unfold pushWrite toPending
      simp [cachePut_mongoWriteQueue]
    have hQm : (pushWrite (cachePut st w.1 w.2.1 w.2.2) w.1 w.2.1 w.2.2).hasMongo = true := by
      rw [pushWrite_hasMongo, cachePut_hasMongo]
      exact hm
    have hQb : (pushWrite (cachePut st w.1 w.2.1 w.2.2) w.1 w.2.1 w.2.2).bulkWrites
        = st.bulkWrites := by
      rw [pushWrite_bulkWrites, cachePut_bulkWrites]
    have hQc : (pushWrite (cachePut st w.1 w.2.1 w.2.2) w.1 w.2.1 w.2.2).mongoColl
        = st.mongoColl := by
      rw [pushWrite_mongoColl, cachePut_mongoColl]
    cases rest with
    | nil =>
      have hlen1 : 10 ≤ st.mongoWriteQueue.length + 1 := by
        simp only [List.length_cons, List.length_nil] at hlen
        omega
      rw [hstep, set_true_at st w.1 w.2.1 w.2.2 true hm hlen1]
      have hQne : (pushWrite (cachePut st w.1 w.2.1 w.2.2) w.1 w.2.1 w.2.2).mongoWriteQueue ≠ [] := by
        rw [hQq]
        simp
      have hflush := flushMongoWrites_success
        (pushWrite (cachePut st w.1 w.2.1 w.2.2) w.1 w.2.1 w.2.2) hQm hQne
      have hstep2 : runSets (flushMongoWrites
          (pushWrite (cachePut st w.1 w.2.1 w.2.2) w.1 w.2.1 w.2.2) true) [] true
          = flushMongoWrites (pushWrite (cachePut st w.1 w.2.1 w.2.2) w.1 w.2.1 w.2.2) true := rfl
      rw [hstep2, hflush]
      refine ⟨rfl, ?_, ?_⟩
      · simp only [hQb, hQq, List.map_cons, List.map_nil]
      · simp only [hQc, hQq, List.map_cons, List.map_nil]
    | cons w2 rest2 =>
      have hlen1 : st.mongoWriteQueue.length + 1 < 10 := by
        simp only [List.length_cons] at hlen
        omega
      rw [hstep, set_true_under st w.1 w.2.1 w.2.2 true hm hlen1]
      have hlen2 : (pushWrite (cachePut st w.1 w.2.1 w.2.2) w.1 w.2.1 w.2.2).mongoWriteQueue.length
          + (w2 :: rest2).length = 10 := by
        rw [hQq]
        simp only [List.length_append, List.length_cons, List.length_nil] at hlen ⊢
        omega
      rcases ih (pushWrite (cachePut st w.1 w.2.1 w.2.2) w.1 w.2.1 w.2.2) hQm
        (by simp) hlen2 with ⟨h1, h2, h3⟩
      refine ⟨h1, ?_, ?_⟩
      · rw [h2, hQb, hQq]
        simp [List.append_assoc]
      · rw [h3, hQc, hQq]
        simp [List.append_assoc]

/-! ### The unbounded-mode snapshot roundtrip -/

theorem objLookup_append_single {κ α : Type} [DecidableEq κ]
    {acc : List (κ × α)} {s : κ} (cur : α) (h : freshKey acc s) :
    objLookup (acc ++ [(s, cur)]) s = some cur := by
  rw [objLookup_append_fresh _ h]
  simp [objLookup]

theorem innerFoldP_build {V : Type} (s : String) :
    ∀ (m : List (String × V)) (acc : Snapshot V) (cur : List (String × V)),
    freshKey acc s → NodupKeys m →
    (∀ q ∈ cur, ∀ kk ∈ keysOf m, q.1 ≠ kk) →
    m.foldl (fun a2 kv => objSetNested a2 s kv.1 kv.2) (acc ++ [(s, cur)])
      = acc ++ [(s, cur ++ m)] := by
  intro m
  induction m with
  | nil =>
    intro acc cur _ _ _
    simp
  | cons kv rest ih =>
    intro acc cur hfresh hnodup hdisj
    have hnodup' : NodupKeys rest := by
      unfold NodupKeys keysOf at hnodup ⊢
      simp only [List.map_cons, List.nodup_cons] at hnodup
      exact hnodup.2
    have hhead : kv.1 ∉ keysOf rest := by
      unfold NodupKeys keysOf at hnodup
      simp only [List.map_cons, List.nodup_cons] at hnodup
      exact hnodup.1
    have hstep : objSetNested (acc ++ [(s, cur)]) s kv.1 kv.2
        = acc ++ [(s, cur ++ [kv])] := by
      unfold objSetNested
      rw [objLookup_append_single cur hfresh]
      have hcurfresh : freshKey cur kv.1 := by
        intro q hq
        exact hdisj q hq kv.1 (by simp [keysOf])
      rw [Option.getD_some, objSet_of_fresh kv.2 hcurfresh]
      rw [objSet_append_self _ _ hfresh]
    rw [List.foldl_cons, hstep]
    rw [ih acc (cur ++ [kv]) hfresh hnodup' ?_]
    · simp
    · intro q hq kk hkk
      rcases List.mem_append.mp hq with hq' | hq'
      · exact hdisj q hq' kk (by simp only [keysOf, List.map_cons]; exact List.mem_cons_of_mem _ hkk)
      · have : q = kv := by simpa using hq'
        subst this
        intro hqe
        exact hhead (hqe ▸ hkk)

theorem innerFoldP_start {V : Type} (s : String) (m : List (String × V))
    (acc : Snapshot V) (hfresh : freshKey acc s) (hnodup : NodupKeys m)
    (hne : m ≠ []) :
    m.foldl (fun a2 kv => objSetNested a2 s kv.1 kv.2) acc = acc ++ [(s, m)] := by
  cases m with
  | nil => exact absurd rfl hne
  | cons kv rest =>
    have hnodup' : NodupKeys rest := by
      unfold NodupKeys keysOf at hnodup ⊢
      simp only [List.map_cons, List.nodup_cons] at hnodup
      exact hnodup.2
    have hhead : kv.1 ∉ keysOf rest := by
      unfold NodupKeys keysOf at hnodup
      simp only [List.map_cons, List.nodup_cons] at hnodup
      exact hnodup.1
    have hstep : objSetNested acc s kv.1 kv.2 = acc ++ [(s, [kv])] := by
      unfold objSetNested
      rw [objLookup_eq_none_of_fresh hfresh]
      rw [Option.getD_none, objSet_of_fresh _ hfresh]
      simp [objSet]
    rw [List.foldl_cons, hstep]
    rw [innerFoldP_build s rest acc [kv] hfresh hnodup' ?_]
    · simp
    · intro q hq kk hkk
      have : q = kv := by simpa using hq
      subst this
      intro hqe
      exact hhead (hqe ▸ hkk)

theorem loadPlainFold_disjoint {V : Type} :
    ∀ (json : Snapshot V) (acc : Snapshot V),
    (∀ sE ∈ json, freshKey acc sE.1) → NodupKeys json →
    (∀ sE ∈ json, NodupKeys sE.2 ∧ sE.2 ≠ []) →
    loadPlainFold acc json = acc ++ json := by
  intro json
  induction json with
  | nil =>
    intro acc _ _ _
    simp [loadPlainFold]
  | cons sE rest ih =>
    intro acc hfresh hnodup hwf
    have hnodup' : NodupKeys rest := by
      unfold NodupKeys keysOf at hnodup ⊢
      simp only [List.map_cons, List.nodup_cons] at hnodup
      exact hnodup.2
    have hhead : sE.1 ∉ keysOf rest := by
      unfold NodupKeys keysOf at hnodup
      simp only [List.map_cons, List.nodup_cons] at hnodup
      exact hnodup.1
    have hinner : sE.2.foldl (fun a2 kv => objSetNested a2 sE.1 kv.1 kv.2) acc
        = acc ++ [sE] := by
      rw [innerFoldP_start sE.1 sE.2 acc (hfresh sE (by simp))
        (hwf sE (by simp)).1 (hwf sE (by simp)).2]
    have hstep : loadPlainFold acc (sE :: rest)
        = loadPlainFold (acc ++ [sE]) rest := by
      unfold loadPlainFold
      rw [List.foldl_cons, hinner]
    rw [hstep, ih (acc ++ [sE]) ?_ hnodup' (fun p hp => hwf p (List.mem_cons_of_mem _ hp))]
    · simp
    · intro s' hs' q hq
      rcases List.mem_append.mp hq with hq' | hq'
      · exact hfresh s' (List.mem_cons_of_mem _ hs') q hq'
      · have : q = sE := by simpa using hq'
        subst this
        intro hqe
        exact hhead (by
          rw [hqe]
          exact List.mem_map.mpr ⟨s', hs', rfl⟩)

/-- A predicate preserved by every step of a fold is preserved by the fold. -/
theorem foldl_preserve {α β : Type} (P : α → Prop) :
    ∀ (l : List β) (f : α → β → α) (init : α), P init →
    (∀ a b, P a → P (f a b)) → P (l.foldl f init) := by
  intro l
  induction l with
  | nil => intro f init h _; exact h
  | cons x xs ih =>
    intro f init h hstep
    rw [List.foldl_cons]
    exact ih f (f init x) (hstep init x h) hstep

/-! ### The bounded-mode snapshot roundtrip -/

theorem SnapWF_nil {V : Type} : SnapWF ([] : Snapshot V) :=
  ⟨List.nodup_nil, fun p hp => absurd hp (List.not_mem_nil p)⟩

theorem SnapWF_objSetNested {V : Type} {json : Snapshot V} {s0 k0 : String}
    {v : V} (hwf : SnapWF json) (hs0 : dotFree s0) (hk0 : dotFree k0) :
    SnapWF (objSetNested json s0 k0 v) := by
  constructor
  · unfold objSetNested
    exact nodupKeys_objSet _ _ hwf.1
  · intro p hp
    unfold objSetNested at hp
    rcases mem_objSet hp with hnew | hold
    · subst hnew
      refine ⟨hs0, ?_, ?_⟩
      · cases hL : objLookup json s0 with
        | none =>
          simp only [hL, Option.getD_none]
          exact nodupKeys_objSet _ _ (by simp [NodupKeys, keysOf])
        | some m =>
          simp only [hL, Option.getD_some]
          exact nodupKeys_objSet _ _ ((hwf.2 (s0, m) (objLookup_mem hL)).2.1)
      · intro q hq
        cases hL : objLookup json s0 with
        | none =>
          rw [hL] at hq
          simp only [Option.getD_none] at hq
          rcases mem_objSet hq with h | h
          · subst h; exact hk0
          · cases h
        | some m =>
          rw [hL] at hq
          simp only [Option.getD_some] at hq
          rcases mem_objSet hq with h | h
          · subst h; exact hk0
          · exact (hwf.2 (s0, m) (objLookup_mem hL)).2.2 q h
    · exact hwf.2 p hold

theorem saveStep_composite {V : Type} (j : Snapshot V) (p : String × V)
    {s0 k0 : String} (hs0 : dotFree s0) (hk0 : dotFree k0)
    (hck : p.1 = cacheKey s0 k0) :
    saveStep j p = objSetNested j s0 k0 p.2 := by
  unfold saveStep
  rw [hck, jsSplitDot_cacheKey hs0 hk0]

theorem SnapWF_saveLRUFold {V : Type} :
    ∀ (cache : List (String × V)) (json : Snapshot V), SnapWF json →
    (∀ p ∈ cache, compositeKey p.1) → SnapWF (saveLRUFold json cache) := by
  intro cache
  induction cache with
  | nil => intro json hwf _; exact hwf
  | cons p rest ih =>
    intro json hwf hcomp
    rcases hcomp p (by simp) with ⟨s0, k0, hs0, hk0, hck⟩
    have hstep : saveLRUFold json (p :: rest) = saveLRUFold (objSetNested json s0 k0 p.2) rest := by
      unfold saveLRUFold
      rw [List.foldl_cons, saveStep_composite json p hs0 hk0 hck]
    rw [hstep]
    exact ih _ (SnapWF_objSetNested hwf hs0 hk0)
      (fun q hq => hcomp q (List.mem_cons_of_mem _ hq))

theorem saveLRUFold_lookup2 {V : Type} :
    ∀ (cache : List (String × V)) (json : Snapshot V),
    NodupKeys cache → (∀ p ∈ cache, compositeKey p.1) →
    ∀ s k, dotFree s → dotFree k →
    lookup2 (saveLRUFold json cache) s k =
      (objLookup cache (cacheKey s k)).or (lookup2 json s k) := by
  intro cache
  induction cache with
  | nil =>
    intro json _ _ s k _ _
    simp [saveLRUFold, objLookup]
  | cons p rest ih =>
    intro json hnodup hcomp s k hs hk
    rcases hcomp p (by simp) with ⟨s0, k0, hs0, hk0, hck⟩
    have hnodup' : NodupKeys rest := by
      unfold NodupKeys keysOf at hnodup ⊢
      simp only [List.map_cons, List.nodup_cons] at hnodup
      exact hnodup.2
    have hhead : p.1 ∉ keysOf rest := by
      unfold NodupKeys keysOf at hnodup
      simp only [List.map_cons, List.nodup_cons] at hnodup
      exact hnodup.1
    have hstep : saveLRUFold json (p :: rest) = saveLRUFold (objSetNested json s0 k0 p.2) rest := by
      unfold saveLRUFold
      rw [List.foldl_cons, saveStep_composite json p hs0 hk0 hck]
    rw [hstep, ih _ hnodup' (fun q hq => hcomp q (List.mem_cons_of_mem _ hq)) s k hs hk]
    rw [lookup2_objSetNested]
    by_cases heq : s = s0 ∧ k = k0
    · rcases heq with ⟨rfl, rfl⟩
      have hpk : p.1 = cacheKey s k := hck
      have hlr : objLookup rest (cacheKey s k) = none := by
        apply objLookup_eq_none_of_fresh
        rw [freshKey_iff_not_mem_keysOf]
        rw [← hpk]
        exact hhead
      have hpl : objLookup (p :: rest) (cacheKey s k) = some p.2 := by
        simp [objLookup, hpk]
      rw [hlr, hpl, if_pos ⟨rfl, rfl⟩]
      simp
    · have hne : p.1 ≠ cacheKey s k := by
        rw [hck]
        intro hcontra
        rcases cacheKey_inj hs0 hs hcontra with ⟨h1, h2⟩
        exact heq ⟨h1.symm, h2.symm⟩
      have hpl : objLookup (p :: rest) (cacheKey s k) = objLookup rest (cacheKey s k) := by
        simp [objLookup, hne]
      rw [hpl, if_neg heq]

theorem innerFoldL {V : Type} (s0 : String) :
    ∀ (m : List (String × V)) (cache0 : List (String × V)),
    NodupKeys m → dotFree s0 → (∀ q ∈ m, dotFree q.1) →
    ∀ s k, dotFree s → dotFree k →
    objLookup (m.foldl (fun a2 kv => objSet a2 (cacheKey s0 kv.1) kv.2) cache0)
        (cacheKey s k)
      = (if s = s0 then objLookup m k else none).or (objLookup cache0 (cacheKey s k)) := by
  intro m
  induction m with
  | nil =>
    intro cache0 _ _ _ s k _ _
    simp [objLookup, ite_self]
  | cons kv rest ih =>
    intro cache0 hnodup hs0 hdf s k hs hk
    have hnodup' : NodupKeys rest := by
      unfold NodupKeys keysOf at hnodup ⊢
      simp only [List.map_cons, List.nodup_cons] at hnodup
      exact hnodup.2
    have hhead : kv.1 ∉ keysOf rest := by
      unfold NodupKeys keysOf at hnodup
      simp only [List.map_cons, List.nodup_cons] at hnodup
      exact hnodup.1
    have hkv : dotFree kv.1 := hdf kv (by simp)
    rw [List.foldl_cons, ih (objSet cache0 (cacheKey s0 kv.1) kv.2) hnodup' hs0
      (fun q hq => hdf q (List.mem_cons_of_mem _ hq)) s k hs hk]
    by_cases heq : s = s0 ∧ k = kv.1
    · obtain ⟨hseq, hkeq⟩ := heq
      rw [hseq, hkeq]
      have hlr : objLookup rest kv.1 = none := by
        apply objLookup_eq_none_of_fresh
        rw [freshKey_iff_not_mem_keysOf]
        exact hhead
      rw [if_pos rfl, if_pos rfl, objLookup_objSet_self, hlr]
      simp [objLookup]
    · have hne : cacheKey s k ≠ cacheKey s0 kv.1 := by
        intro hcontra
        rcases cacheKey_inj hs hs0 hcontra with ⟨h1, h2⟩
        exact heq ⟨h1, h2⟩
      rw [objLookup_objSet_ne _ _ _ _ hne]
      by_cases hss : s = s0
      · subst hss
        have : objLookup (kv :: rest) k = objLookup rest k := by
          have : kv.1 ≠ k := fun hh => heq ⟨rfl, hh.symm⟩
          simp [objLookup, this]
        rw [if_pos rfl, if_pos rfl, this]
      · rw [if_neg hss, if_neg hss]

theorem loadLRUFold_lookup {V : Type} :
    ∀ (json : Snapshot V) (cache0 : List (String × V)), SnapWF json →
    ∀ s k, dotFree s → dotFree k →
    objLookup (loadLRUFold cache0 json) (cacheKey s k)
      = (lookup2 json s k).or (objLookup cache0 (cacheKey s k)) := by
  intro json
  induction json with
  | nil =>
    intro cache0 _ s k _ _
    simp [loadLRUFold, lookup2, objLookup]
  | cons sE rest ih =>
    intro cache0 hwf s k hs hk
    have hwf' : SnapWF rest := by
      constructor
      · unfold SnapWF NodupKeys keysOf at hwf
        rcases hwf with ⟨h1, _⟩
        simp only [List.map_cons, List.nodup_cons] at h1
        exact h1.2
      · exact fun p hp => hwf.2 p (List.mem_cons_of_mem _ hp)
    have hhead : sE.1 ∉ keysOf rest := by
      unfold SnapWF NodupKeys keysOf at hwf
      rcases hwf with ⟨h1, _⟩
      simp only [List.map_cons, List.nodup_cons] at h1
      exact h1.1
    rcases hwf.2 sE (by simp) with ⟨hsE, hnodupE, hdfE⟩
    have hstep : loadLRUFold cache0 (sE :: rest)
        = loadLRUFold (sE.2.foldl (fun a2 kv => objSet a2 (cacheKey sE.1 kv.1) kv.2) cache0) rest := by
      unfold loadLRUFold
      rw [List.foldl_cons]
    rw [hstep, ih _ hwf' s k hs hk,
      innerFoldL sE.1 sE.2 cache0 hnodupE hsE hdfE s k hs hk]
    by_cases hss : s = sE.1
    · have h1 : objLookup (sE :: rest) s = some sE.2 := by
        show (if sE.1 = s then some sE.2 else objLookup rest s) = some sE.2
        rw [if_pos hss.symm]
      have h2 : lookup2 rest s k = none := by
        unfold lookup2
        rw [objLookup_eq_none_of_fresh ((freshKey_iff_not_mem_keysOf rest s).mpr
          (by rw [hss]; exact hhead))]
        rfl
      have h3 : lookup2 (sE :: rest) s k = objLookup sE.2 k := by
        unfold lookup2
        rw [h1]
        rfl
      rw [h2, h3, if_pos hss]
      simp
    · have h1 : objLookup (sE :: rest) s = objLookup rest s := by
        have : sE.1 ≠ s := fun hh => hss hh.symm
        simp [objLookup, this]
      unfold lookup2
      rw [h1, if_neg hss]
      simp

/-! ### Behaviour of get, and operation equations in each mode -/

theorem cacheGet_cachePut_self {V : Type} (st : BBState V) (s k : String) (v : V) :
    cacheGet (cachePut st s k v) s k = some v := by
  unfold cacheGet cachePut
  by_cases h : st.useCache = true
  · simp [h, objLookup_objSet_self]
  · simp [h, objSetNested, objLookup_objSet_self]

theorem get_cache_hit {V : Type} (st : BBState V) (s k : String) (b : Bool)
    (v : V) (h : cacheGet st s k = some v) : get st s k b = .ok (some v, st) := by
  unfold get
  rw [h]

theorem get_miss_backend_fail {V : Type} (st : BBState V) (s k : String)
    (hmiss : cacheGet st s k = none) (hm : st.hasMongo = true) :
    get st s k false = .error () := by
  unfold get
  rw [hmiss]
  simp [hm]

theorem get_miss_backend_hit {V : Type} (st : BBState V) (s k : String) (v : V)
    (hmiss : cacheGet st s k = none) (hm : st.hasMongo = true)
    (hcoll : objLookup st.mongoColl (s, k) = some v) :
    get st s k true = .ok (some v, cachePut st s k v) := by
  unfold get
  rw [hmiss]
  simp [hm, hcoll]

theorem get_no_mongo {V : Type} (st : BBState V) (s k : String) (b : Bool)
    (hm : st.hasMongo = false) : get st s k b = .ok (cacheGet st s k, st) := by
  unfold get
  cases hcg : cacheGet st s k with
  | none => simp [hm]
  | some v => simp

theorem objSet_ne_nil {κ α : Type} [DecidableEq κ]
    (l : List (κ × α)) (k : κ) (v : α) : objSet l k v ≠ [] := by
  cases l with
  | nil => simp [objSet]
  | cons p rest =>
    unfold objSet
    split <;> simp

theorem saveStore_plain {V : Type} (st : BBState V) (hc : st.useCache = false) :
    saveStore st = st.plainStore := by
  unfold saveStore
  simp [hc]

theorem saveStore_lru {V : Type} (st : BBState V) (hc : st.useCache = true) :
    saveStore st = saveLRUFold [] st.lruStore := by
  unfold saveStore
  simp [hc]

theorem loadStore_plain {V : Type} (st : BBState V) (json : Snapshot V)
    (hc : st.useCache = false) :
    loadStore st json = { st with plainStore := loadPlainFold st.plainStore json } := by
  unfold loadStore
  simp [hc]

theorem loadStore_lru {V : Type} (st : BBState V) (json : Snapshot V)
    (hc : st.useCache = true) :
    loadStore st json = { st with lruStore := loadLRUFold st.lruStore json } := by
  unfold loadStore
  simp [hc]

theorem removeSection_no_mongo {V : Type} (st : BBState V) (s : String)
    (hc : st.useCache = false) (hm : st.hasMongo = false) :
    removeSection st s = { st with plainStore := objDelete st.plainStore s } := by
  unfold removeSection
  simp [hc, hm]

theorem removeKey_no_mongo_absent {V : Type} (st : BBState V) (s k : String)
    (hc : st.useCache = false) (hm : st.hasMongo = false)
    (hL : objLookup st.plainStore s = none) :
    removeKey st s k = st := by
  unfold removeKey
  simp only [hc, Bool.false_eq_true, if_false, hL, hm]

theorem removeKey_no_mongo_last {V : Type} (st : BBState V) (s k : String)
    (m : List (String × V)) (hc : st.useCache = false) (hm : st.hasMongo = false)
    (hL : objLookup st.plainStore s = some m) (hdel : objDelete m k = []) :
    removeKey st s k = { st with plainStore := objDelete st.plainStore s } := by
  unfold removeKey
  simp only [hc, Bool.false_eq_true, if_false, hL, hdel, List.isEmpty_nil, if_true, hm]

theorem removeKey_no_mongo_keep {V : Type} (st : BBState V) (s k : String)
    (m : List (String × V)) (hc : st.useCache = false) (hm : st.hasMongo = false)
    (hL : objLookup st.plainStore s = some m) (hdel : objDelete m k ≠ []) :
    removeKey st s k = { st with plainStore := objSet st.plainStore s (objDelete m k) } := by
  unfold removeKey
  have hie : (objDelete m k).isEmpty = false := by
    simp [hdel]
  simp only [hc, Bool.false_eq_true, if_false, hL, hie, hm]

theorem cachePut_plain {V : Type} (st : BBState V) (s k : String) (v : V)
    (hc : st.useCache = false) :
    cachePut st s k v = { st with plainStore := objSetNested st.plainStore s k v } := by
  unfold cachePut
  simp [hc]

theorem cachePut_lru {V : Type} (st : BBState V) (s k : String) (v : V)
    (hc : st.useCache = true) :
    cachePut st s k v = { st with lruStore := objSet st.lruStore (cacheKey s k) v } := by
  unfold cachePut
  simp [hc]

theorem noEmptySections_objSetNested {V : Type} (store : Snapshot V)
    (s k : String) (v : V) (h : ∀ p ∈ store, p.2 ≠ ([] : List (String × V))) :
    ∀ p ∈ objSetNested store s k v, p.2 ≠ [] := by
  intro p hp
  unfold objSetNested at hp
  rcases mem_objSet hp with hnew | hold
  · subst hnew
    exact objSet_ne_nil _ _ _
  · exact h p hold

/-! ### The claims -/

/-- Claim C1 (confirmed).  In unbounded mode with no durable backend,
set(section, key, value) with the default cacheable = true followed by
get(section, key) returns exactly that value (and leaves the store as set
left it). -/
theorem c1_set_get_roundtrip :
    ∀ (V : Type) (st : BBState V) (s k : String) (v : V) (b b2 : Bool),
    st.useCache = false → st.hasMongo = false →
    get (set st s k v true b) s k b2 = Except.ok (some v, set st s k v true b) := by
  intro V st s k v b b2 hc hm
  have hset : set st s k v true b = cachePut st s k v := by
    rw [set_no_mongo st s k v true b hm]
    simp
  rw [hset]
  exact get_cache_hit _ s k b2 v (cacheGet_cachePut_self st s k v)

/-- Witness for C1: end-to-end scenario A of the spec on a fresh store. -/
theorem c1_witness :
    get (set (⟨[], [], false, false, [], [], []⟩ : BBState String)
          "app" "version" "1.0.0" true true) "app" "version" true
      = Except.ok (some "1.0.0",
          set (⟨[], [], false, false, [], [], []⟩ : BBState String)
            "app" "version" "1.0.0" true true) :=
  c1_set_get_roundtrip String ⟨[], [], false, false, [], [], []⟩
    "app" "version" "1.0.0" true true rfl rfl

/-- Counterexample to C2 as stated: in bounded-cache mode a composite cache
key holding an extra dot (key "a.b" of section "s") is corrupted by
saveStore, which splits the composite key on dots and keeps only the first
two fragments; after a save/load roundtrip the entry is stored under the
composite key "s.a" instead of "s.a.b", so the original entry is gone. -/
theorem c2_counterexample :
    objLookup (⟨[], [("s.a.b", "v")], true, true, [], [], []⟩ : BBState String).lruStore
        "s.a.b" = some "v" ∧
    objLookup (loadStore (⟨[], [], true, true, [], [], []⟩ : BBState String)
        (saveStore (⟨[], [("s.a.b", "v")], true, true, [], [], []⟩ : BBState String))).lruStore
        "s.a.b" = none ∧
    objLookup (loadStore (⟨[], [], true, true, [], [], []⟩ : BBState String)
        (saveStore (⟨[], [("s.a.b", "v")], true, true, [], [], []⟩ : BBState String))).lruStore
        "s.a" = some "v" :=
  ⟨rfl, rfl, rfl⟩

/-- Claim C2 (amended).  saveStore followed by loadStore into a fresh empty
store of the same mode reproduces the contents exactly, for well-formed
states: in unbounded mode for every store with unique section and key names
and no empty sections; in bounded-cache mode for every cache whose composite
keys are built from dot-free section and key names (an extra dot in a
composite key is corrupted by the split in saveStore, see the
counterexample). -/
theorem c2_snapshot_roundtrip_amended :
    ∀ (V : Type) (st : BBState V),
    (st.useCache = false → NodupKeys st.plainStore →
      (∀ p ∈ st.plainStore, NodupKeys p.2 ∧ p.2 ≠ []) →
      (loadStore (⟨[], [], false, false, [], [], []⟩ : BBState V) (saveStore st)).plainStore
        = st.plainStore) ∧
    (st.useCache = true → NodupKeys st.lruStore →
      (∀ p ∈ st.lruStore, compositeKey p.1) →
      ∀ s k, dotFree s → dotFree k →
      objLookup (loadStore (⟨[], [], true, true, [], [], []⟩ : BBState V)
          (saveStore st)).lruStore (cacheKey s k)
        = objLookup st.lruStore (cacheKey s k)) := by
  intro V st
  constructor
  · intro hc hnodup hwf
    rw [saveStore_plain st hc]
    show loadPlainFold ([] : Snapshot V) st.plainStore = st.plainStore
    rw [loadPlainFold_disjoint st.plainStore []
      (fun sE _ p hp => absurd hp (List.not_mem_nil p)) hnodup hwf]
    exact List.nil_append _
  · intro hc hnodup hcomp s k hs hk
    rw [saveStore_lru st hc]
    show objLookup (loadLRUFold ([] : List (String × V)) (saveLRUFold [] st.lruStore))
        (cacheKey s k) = objLookup st.lruStore (cacheKey s k)
    rw [loadLRUFold_lookup (saveLRUFold [] st.lruStore) []
      (SnapWF_saveLRUFold st.lruStore [] SnapWF_nil hcomp) s k hs hk]
    rw [saveLRUFold_lookup2 st.lruStore [] hnodup hcomp s k hs hk]
    simp [lookup2, objLookup]

/-- Witness for C2: the unbounded roundtrip on a two-section store. -/
theorem c2_witness :
    (loadStore (⟨[], [], false, false, [], [], []⟩ : BBState String)
        (saveStore (⟨[("a", [("x", "1")]), ("b", [("y", "2")])], [], false, false, [], [], []⟩
          : BBState String))).plainStore
      = [("a", [("x", "1")]), ("b", [("y", "2")])] :=
  (c2_snapshot_roundtrip_amended String
    ⟨[("a", [("x", "1")]), ("b", [("y", "2")])], [], false, false, [], [], []⟩).1
    rfl (by decide) (by decide)

/-- Claim C3 (code bug).  The SIGTERM/SIGINT handler installed by
setupShutdown awaits saveStore() and then closes the Mongo client; it never
calls flushMongoWrites, so with one pending write queued the shutdown trace
is [saveSnapshot, closeClient] with no flush step, the queued write never
reaches the collection, and it is lost when the process exits. -/
theorem c3_shutdown_drops_pending_writes :
    shutdownHandler (⟨[], [("db.host", "localhost")], true, true, [],
        [⟨"db", "host", "localhost"⟩], []⟩ : BBState String)
      = (⟨[], [("db.host", "localhost")], true, true, [],
          [⟨"db", "host", "localhost"⟩], []⟩,
         [("db", [("host", "localhost")])],
         [ShutdownStep.saveSnapshot, ShutdownStep.closeClient]) ∧
    ShutdownStep.flushWrites ∉
      (shutdownHandler (⟨[], [("db.host", "localhost")], true, true, [],
        [⟨"db", "host", "localhost"⟩], []⟩ : BBState String)).2.2 ∧
    (shutdownHandler (⟨[], [("db.host", "localhost")], true, true, [],
        [⟨"db", "host", "localhost"⟩], []⟩ : BBState String)).1.mongoColl = [] ∧
    (shutdownHandler (⟨[], [("db.host", "localhost")], true, true, [],
        [⟨"db", "host", "localhost"⟩], []⟩ : BBState String)).1.mongoWriteQueue
      = [⟨"db", "host", "localhost"⟩] :=
  ⟨rfl, by decide, rfl, rfl⟩

/-- Claim C4 (confirmed).  With a durable backend configured and an empty
queue, a run of fewer than 10 set calls issues no bulk write and leaves all
writes queued in order; a run of exactly 10 set calls issues exactly one
bulk write containing all 10 queued writes and clears the queue. -/
theorem c4_batching_threshold :
    ∀ (V : Type) (st : BBState V) (ws : List (String × String × V)),
    st.hasMongo = true → st.mongoWriteQueue = [] → st.bulkWrites = [] →
    (ws.length < 10 →
      (runSets st ws true).bulkWrites = [] ∧
      (runSets st ws true).mongoWriteQueue = ws.map toPending) ∧
    (ws.length = 10 →
      (runSets st ws true).bulkWrites = [ws.map toPending] ∧
      (runSets st ws true).mongoWriteQueue = []) := by
  intro V st ws hm hq hb
  constructor
  · intro hlt
    rcases runSets_under_threshold ws st true hm (by rw [hq]; simpa using hlt)
      with ⟨h1, h2, _⟩
    refine ⟨by rw [h2, hb], ?_⟩
    rw [h1, hq]
    exact List.nil_append _
  · intro h10
    have hne : ws ≠ [] := by
      intro hcon
      rw [hcon] at h10
      simp at h10
    rcases runSets_at_threshold ws st hm hne (by rw [hq]; simpa using h10)
      with ⟨h1, h2, _⟩
    refine ⟨?_, h1⟩
    rw [h2, hb, hq]
    simp

/-- Witness for C4: ten concrete writes from a fresh bounded store trigger
exactly one automatic bulk write of all ten and empty the queue. -/
theorem c4_witness :
    (runSets (⟨[], [], true, true, [], [], []⟩ : BBState String)
        [("s", "k0", "v"), ("s", "k1", "v"), ("s", "k2", "v"), ("s", "k3", "v"),
         ("s", "k4", "v"), ("s", "k5", "v"), ("s", "k6", "v"), ("s", "k7", "v"),
         ("s", "k8", "v"), ("s", "k9", "v")] true).bulkWrites
      = [[("s", "k0", "v"), ("s", "k1", "v"), ("s", "k2", "v"), ("s", "k3", "v"),
          ("s", "k4", "v"), ("s", "k5", "v"), ("s", "k6", "v"), ("s", "k7", "v"),
          ("s", "k8", "v"), ("s", "k9", "v")].map toPending] ∧
    (runSets (⟨[], [], true, true, [], [], []⟩ : BBState String)
        [("s", "k0", "v"), ("s", "k1", "v"), ("s", "k2", "v"), ("s", "k3", "v"),
         ("s", "k4", "v"), ("s", "k5", "v"), ("s", "k6", "v"), ("s", "k7", "v"),
         ("s", "k8", "v"), ("s", "k9", "v")] true).mongoWriteQueue = [] :=
  (c4_batching_threshold String ⟨[], [], true, true, [], [], []⟩
    [("s", "k0", "v"), ("s", "k1", "v"), ("s", "k2", "v"), ("s", "k3", "v"),
     ("s", "k4", "v"), ("s", "k5", "v"), ("s", "k6", "v"), ("s", "k7", "v"),
     ("s", "k8", "v"), ("s", "k9", "v")] rfl rfl rfl).2 rfl

/-- Counterexample to C5 as stated: from a fresh bounded store,
set("database", "host", "localhost", false) only queues the durable write,
so the immediately following get misses the cache AND the backend (which
has not received the write yet) and returns undefined, not "localhost". -/
theorem c5_counterexample :
    get (set (⟨[], [], true, true, [], [], []⟩ : BBState String)
          "database" "host" "localhost" false true) "database" "host" true
      = Except.ok ((none : Option String),
          set (⟨[], [], true, true, [], [], []⟩ : BBState String)
            "database" "host" "localhost" false true) ∧
    (none : Option String) ≠ some "localhost" :=
  ⟨rfl, by decide⟩

/-- Claim C5 (amended).  set(section, key, value, false) leaves the cache
unchanged (in particular the entry stays absent); once the queued write has
been flushed to the backend, a subsequent get misses the cache, reads the
value from the backend, repopulates the cache with it and returns it. -/
theorem c5_cacheable_false_amended :
    ∀ (V : Type) (st : BBState V) (s k : String) (v : V) (b : Bool),
    st.useCache = true → st.hasMongo = true →
    objLookup st.lruStore (cacheKey s k) = none →
    (set st s k v false b).lruStore = st.lruStore ∧
    get (flushMongoWrites (set st s k v false b) true) s k true
      = Except.ok (some v, cachePut (flushMongoWrites (set st s k v false b) true) s k v) ∧
    objLookup (cachePut (flushMongoWrites (set st s k v false b) true) s k v).lruStore
        (cacheKey s k) = some v := by
  intro V st s k v b hc hm hmiss
  have hsetlru : (set st s k v false b).lruStore = st.lruStore := by
    rw [set_lruStore_eq]
    simp
  have hflru : (flushMongoWrites (set st s k v false b) true).lruStore = st.lruStore := by
    rw [flushMongoWrites_lruStore, hsetlru]
  have hfuc : (flushMongoWrites (set st s k v false b) true).useCache = true := by
    rw [flushMongoWrites_useCache, set_useCache]
    exact hc
  have hfhm : (flushMongoWrites (set st s k v false b) true).hasMongo = true := by
    rw [flushMongoWrites_hasMongo, set_hasMongo]
    exact hm
  have hcoll : objLookup (flushMongoWrites (set st s k v false b) true).mongoColl (s, k)
      = some v := by
    rw [flush_after_set_mongoColl st s k v false b hm]
    exact objLookup_applyBulk_last st.mongoColl st.mongoWriteQueue ⟨s, k, v⟩
  have hmiss2 : cacheGet (flushMongoWrites (set st s k v false b) true) s k = none := by
    unfold cacheGet
    simp [hfuc, hflru, hmiss]
  refine ⟨hsetlru, ?_, ?_⟩
  · exact get_miss_backend_hit _ s k v hmiss2 hfhm hcoll
  · rw [cachePut_lru _ s k v hfuc]
    simp [objLookup_objSet_self]

/-- Witness for C5: end-to-end scenario B with an explicit flush between
the cacheable = false set and the get. -/
theorem c5_witness :
    get (flushMongoWrites (set (⟨[], [], true, true, [], [], []⟩ : BBState String)
          "database" "host" "localhost" false true) true) "database" "host" true
      = Except.ok (some "localhost",
          cachePut (flushMongoWrites (set (⟨[], [], true, true, [], [], []⟩ : BBState String)
            "database" "host" "localhost" false true) true) "database" "host" "localhost") :=
  (c5_cacheable_false_amended String ⟨[], [], true, true, [], [], []⟩
    "database" "host" "localhost" true rfl rfl rfl).2.1

/-- Counterexample to C6 as stated: on a cache miss with the backend
configured, a failing findOne inside get is not caught anywhere in get, so
the failure propagates to the caller of get instead of being handled
locally. -/
theorem c6_counterexample :
    get (⟨[], [], true, true, [], [], []⟩ : BBState String) "a" "b" false
      = Except.error () :=
  rfl

/-- Claim C6 (amended).  Failures of the durable backend inside set (the
bulk write) are caught locally: set always completes and its effect on both
cache representations is identical whether the bulk write succeeds or
fails.  But a failing backend read inside get, on a cache miss, is raised
to the caller of get (the awaited findOne has no try/catch). -/
theorem c6_error_handling_amended :
    ∀ (V : Type) (st : BBState V) (s k : String) (v : V) (c : Bool),
    ((set st s k v c false).lruStore = (set st s k v c true).lruStore ∧
     (set st s k v c false).plainStore = (set st s k v c true).plainStore) ∧
    (cacheGet st s k = none → st.hasMongo = true →
      get st s k false = Except.error ()) := by
  intro V st s k v c
  refine ⟨⟨?_, ?_⟩, ?_⟩
  · rw [set_lruStore_eq, set_lruStore_eq]
  · rw [set_plainStore_eq, set_plainStore_eq]
  · intro hmiss hm
    exact get_miss_backend_fail st s k hmiss hm

/-- Witness for C6: the get half on a fresh bounded store at another key. -/
theorem c6_witness :
    get (⟨[], [], true, true, [], [], []⟩ : BBState String) "sec" "key" false
      = Except.error () :=
  (c6_error_handling_amended String ⟨[], [], true, true, [], [], []⟩
    "sec" "key" "v" true).2 rfl rfl

/-- Claim C7 (confirmed).  When the bulk upsert issued by flushMongoWrites
fails, the pending queue (and the collection and the caches: the whole
state except the trace of issued bulk writes) is left exactly as before,
so the next flush retries exactly the same writes; the queue is cleared
only by a successful bulk write. -/
theorem c7_flush_failure_preserves_queue :
    ∀ (V : Type) (st : BBState V), st.hasMongo = true → st.mongoWriteQueue ≠ [] →
    flushMongoWrites st false
      = { st with bulkWrites := st.bulkWrites ++ [st.mongoWriteQueue] } ∧
    (flushMongoWrites st true).mongoWriteQueue = [] ∧
    (flushMongoWrites (flushMongoWrites st false) false).bulkWrites
      = st.bulkWrites ++ [st.mongoWriteQueue, st.mongoWriteQueue] ∧
    (flushMongoWrites (flushMongoWrites st false) true).mongoColl
      = applyBulk st.mongoColl st.mongoWriteQueue ∧
    (flushMongoWrites (flushMongoWrites st false) true).mongoWriteQueue = [] := by
  intro V st hm hq
  have h1 := flushMongoWrites_failure st hm hq
  refine ⟨h1, ?_, ?_, ?_, ?_⟩
  · rw [flushMongoWrites_success st hm hq]
  · rw [h1, flushMongoWrites_failure
      { st with bulkWrites := st.bulkWrites ++ [st.mongoWriteQueue] } hm hq]
    simp
  · exact flush_flush_mongoColl st false hm
  · rw [h1, flushMongoWrites_success
      { st with bulkWrites := st.bulkWrites ++ [st.mongoWriteQueue] } hm hq]

/-- Witness for C7: one queued write survives a failed flush untouched. -/
theorem c7_witness :
    flushMongoWrites (⟨[], [], true, true, [], [⟨"a", "b", "1"⟩], []⟩ : BBState String) false
      = (⟨[], [], true, true, [], [⟨"a", "b", "1"⟩], [[⟨"a", "b", "1"⟩]]⟩ : BBState String) :=
  (c7_flush_failure_preserves_queue String ⟨[], [], true, true, [], [⟨"a", "b", "1"⟩], []⟩
    rfl (by decide)).1

/-- Counterexample to C8 as stated: a change event induced by the very
saveStore of this instance still makes the watcher reload (the claim says
it never does). -/
theorem c8_counterexample :
    watcherReloads { eventType := "change", selfInduced := true } = true :=
  rfl

/-- Claim C8 (amended).  The watcher callback has no self-event
suppression: its reload decision depends only on the event type string, so
two events with the same event type are treated identically regardless of
their cause, and in particular the change event produced by this very
instance saving the snapshot triggers a reload (the reload-after-save
feedback loop is present). -/
theorem c8_watcher_amended :
    (∀ e e2 : FileEvent, e.eventType = e2.eventType →
      watcherReloads e = watcherReloads e2) ∧
    watcherReloads saveInducedEvent = true := by
  constructor
  · intro e e2 h
    unfold watcherReloads
    rw [h]
  · rfl

/-- Witness for C8: a self-induced and an external change event are treated
identically. -/
theorem c8_witness :
    watcherReloads ⟨"change", true⟩ = watcherReloads ⟨"change", false⟩ :=
  c8_watcher_amended.1 ⟨"change", true⟩ ⟨"change", false⟩ rfl

/-- Claim C9 (confirmed).  In unbounded mode with no durable backend, every
public operation preserves the invariant that no stored section is empty:
set, removeKey, removeSection and loadStore (on any parsed file contents,
empty sections included) keep the invariant, get does not change the store
at all, and removeKey on the last key of a section removes the section
mapping entirely. -/
theorem c9_no_empty_sections :
    ∀ (V : Type) (st : BBState V) (json : Snapshot V) (s k : String) (v : V)
      (c b b2 : Bool),
    st.useCache = false → st.hasMongo = false → noEmptySections st →
    noEmptySections (set st s k v c b) ∧
    noEmptySections (removeKey st s k) ∧
    noEmptySections (removeSection st s) ∧
    noEmptySections (loadStore st json) ∧
    get st s k b2 = Except.ok (cacheGet st s k, st) ∧
    (objLookup st.plainStore s = some [(k, v)] →
      objLookup (removeKey st s k).plainStore s = none) := by
  intro V st json s k v c b b2 hc hm hinv
  refine ⟨?_, ?_, ?_, ?_, ?_, ?_⟩
  · rw [set_no_mongo st s k v c b hm]
    by_cases hcc : c = true
    · rw [if_pos hcc, cachePut_plain st s k v hc]
      intro p hp
      exact noEmptySections_objSetNested st.plainStore s k v hinv p hp
    · rw [if_neg hcc]
      exact hinv
  · cases hL : objLookup st.plainStore s with
    | none =>
      rw [removeKey_no_mongo_absent st s k hc hm hL]
      exact hinv
    | some m =>
      by_cases hdel : objDelete m k = []
      · rw [removeKey_no_mongo_last st s k m hc hm hL hdel]
        intro p hp
        exact hinv p (mem_objDelete hp)
      · rw [removeKey_no_mongo_keep st s k m hc hm hL hdel]
        intro p hp
        rcases mem_objSet hp with hnew | hold
        · subst hnew
          exact hdel
        · exact hinv p hold
  · rw [removeSection_no_mongo st s hc hm]
    intro p hp
    exact hinv p (mem_objDelete hp)
  · rw [loadStore_plain st json hc]
    intro p hp
    refine foldl_preserve
      (fun store : Snapshot V => ∀ q ∈ store, q.2 ≠ ([] : List (String × V)))
      json _ st.plainStore hinv ?_ p hp
    intro a sE ha
    exact foldl_preserve
      (fun store : Snapshot V => ∀ q ∈ store, q.2 ≠ ([] : List (String × V)))
      sE.2 _ a ha
      (fun a2 kv ha2 => noEmptySections_objSetNested a2 sE.1 kv.1 kv.2 ha2)
  · exact get_no_mongo st s k b2 hm
  · intro hlast
    have hdel : objDelete [(k, v)] k = [] := by
      simp [objDelete]
    rw [removeKey_no_mongo_last st s k [(k, v)] hc hm hlast hdel]
    exact objLookup_objDelete_self st.plainStore s

/-- Witness for C9: removing the last key of a one-key section removes the
section mapping itself. -/
theorem c9_witness :
    objLookup (removeKey (⟨[("a", [("x", "1")])], [], false, false, [], [], []⟩
        : BBState String) "a" "x").plainStore "a" = none :=
  (c9_no_empty_sections String ⟨[("a", [("x", "1")])], [], false, false, [], [], []⟩
    [] "a" "x" "1" true true true rfl rfl (by decide)).2.2.2.2.2 rfl

/-- Claim C10 (confirmed).  In unbounded mode with no durable backend,
removeKey on a section absent from the store, and removeSection on an
absent section, return the state exactly unchanged (and, being total
functions in the embedding, complete without any failure). -/
theorem c10_remove_absent_noop :
    ∀ (V : Type) (st : BBState V) (s k : String),
    st.useCache = false → st.hasMongo = false →
    objLookup st.plainStore s = none →
    removeKey st s k = st ∧ removeSection st s = st := by
  intro V st s k hc hm hL
  refine ⟨removeKey_no_mongo_absent st s k hc hm hL, ?_⟩
  rw [removeSection_no_mongo st s hc hm]
  rw [objDelete_of_fresh (fresh_of_objLookup_eq_none hL)]

/-- Witness for C10: removing an absent section or a key of an absent
section leaves a concrete store untouched. -/
theorem c10_witness :
    removeKey (⟨[("a", [("x", "1")])], [], false, false, [], [], []⟩ : BBState String)
        "zzz" "k"
      = (⟨[("a", [("x", "1")])], [], false, false, [], [], []⟩ : BBState String) ∧
    removeSection (⟨[("a", [("x", "1")])], [], false, false, [], [], []⟩ : BBState String)
        "zzz"
      = (⟨[("a", [("x", "1")])], [], false, false, [], [], []⟩ : BBState String) :=
  c10_remove_absent_noop String ⟨[("a", [("x", "1")])], [], false, false, [], [], []⟩
    "zzz" "k" rfl rfl rfl

end BlackBoard
